import Mathlib

/-!
Shallow embedding of the platinasystems/nvram core: the CMOS byte accessor
interface, the bit-packed entry codec (`CMOS.WriteEntry` / `CMOS.ReadEntry`),
the checksum descriptor and checksum I/O, the layout model (entries and
enumerations) and the NVRAM session control flow (`Open`, `Close`,
`WriteCMOSParameter`).

Machine integers are modelled as `Nat` with explicit `% 256` / `% 65536` where
Go's `byte` / `uint16` conversions and overflow matter.  Fallible operations
return `Option`; `none` stands for a returned non-nil `error` (or a Go panic
for an out-of-range slice index).
-/

namespace Nvram

/-- `cmosSize`: the CMOS region is 256 bytes. -/
def cmosSize : Nat := 256

/-- `cmosRTCAreaSize`: the first 14 bytes are the RTC area. -/
def cmosRTCAreaSize : Nat := 14

/-- `verifyCMOSByteIndex(index)`: `index >= cmosRTCAreaSize && index < cmosSize`. -/
def verifyCMOSByteIndex (index : Nat) : Bool :=
  decide (index ≥ cmosRTCAreaSize) && decide (index < cmosSize)

/-- The CMOS byte store as seen through an accessor.  `some b` is a byte that
reads back as `b`; `none` is a byte whose access fails with an IO error.  An
error-free accessor is `someMem m` for a pure byte function `m`. -/
def Mem : Type := Nat → Option Nat

/-- An accessor that never reports IO errors. -/
def someMem (m : Nat → Nat) : Mem := fun i => some (m i)

/-- `ReadByte` through an accessor: both the hardware and the file accessor
reject an out-of-range index (`ErrInvalidCMOSIndex`) and otherwise read the
byte at `off`. -/
def readByteAcc (mem : Mem) (off : Nat) : Option Nat :=
  if verifyCMOSByteIndex off then mem off else none

/-- `WriteByte` through an accessor: rejects an out-of-range index, errors if
the underlying byte is inaccessible, otherwise stores `b` at `off`. -/
def writeByteAcc (mem : Mem) (off b : Nat) : Option Mem :=
  if verifyCMOSByteIndex off then
    match mem off with
    | some _ => some (fun i => if i = off then some b else mem i)
    | none => none
  else none

/-- `CMOSEntryConfig` is a character code in the source (`'e'`, `'h'`, `'s'`, `'r'`). -/
abbrev CMOSEntryConfig := Char

def CMOSEntryEnum : CMOSEntryConfig := 'e'

def CMOSEntryHex : CMOSEntryConfig := 'h'

def CMOSEntryString : CMOSEntryConfig := 's'

def CMOSEntryReserved : CMOSEntryConfig := 'r'

/-- `CMOSEntry`: a named bit-range (`bit`, `length` in bits) with a config
kind and, for enums, a `config_id`. -/
structure CMOSEntry where
  bit : Nat
  length : Nat
  config : CMOSEntryConfig
  config_id : Nat
  name : String
  deriving DecidableEq, Repr

instance : Inhabited CMOSEntry := ⟨⟨0, 0, CMOSEntryHex, 0, ""⟩⟩

/-- `verifyCMOSEntry`: in range, not unaligned-and-spanning, known config. -/
def verifyCMOSEntry (e : CMOSEntry) : Bool :=
  if decide (e.bit ≥ 8 * cmosSize) || decide (e.bit + e.length > 8 * cmosSize) then
    false
  else if decide (e.bit % 8 > 0) && decide (e.bit / 8 ≠ (e.bit + e.length - 1) / 8) then
    false
  else
    decide (e.config = CMOSEntryString) || decide (e.config = CMOSEntryEnum) ||
      decide (e.config = CMOSEntryHex) || decide (e.config = CMOSEntryReserved)

/-- `verifyCMOSOp`: additionally not reserved, past the RTC area, and at most
64 bits wide unless a string. -/
def verifyCMOSOp (e : CMOSEntry) : Bool :=
  if decide (e.config = CMOSEntryReserved) then false
  else if decide (e.bit < 8 * cmosRTCAreaSize) then false
  else if decide (e.length > 64) && !decide (e.config = CMOSEntryString) then false
  else verifyCMOSEntry e

/-- `checkAreaOverLap(s0,l0,s1,l1)`: closed-range overlap of
`[s0, s0+l0-1]` and `[s1, s1+l1-1]` (all call sites pass lengths ≥ 1). -/
def checkAreaOverLap (s0 l0 s1 l1 : Nat) : Bool :=
  decide (s1 ≤ s0 + l0 - 1) && decide (s0 ≤ s1 + l1 - 1)

/-- `CMOSEntry.IsOverlap`. -/
def CMOSEntry.IsOverlap (e e1 : CMOSEntry) : Bool :=
  checkAreaOverLap e.bit e.length e1.bit e1.length

/-- The loop of `CMOS.WriteEntry`.  `src_size` is 8 until the final partial
byte; a partial byte does a read-modify-write with the mask
`(byte(1<<src_size)-1) << (dst_bit&7)` and then returns.  Byte values and the
mask are `byte`-typed in the source, hence the `% 256`. -/
def writeEntryLoop (mem : Mem) (v : List Nat) (src_bit dst_bit src_bit_remaining : Nat) :
    Option Mem :=
  if src_bit_remaining = 0 then some mem
  else
    match v[src_bit / 8]? with
    | none => none
    | some wvalue =>
      if 8 > src_bit_remaining then
        let src_size := src_bit_remaining
        let wv := (wvalue >>> (src_bit % 8)) &&& (2 ^ src_size - 1)
        match readByteAcc mem (dst_bit / 8) with
        | none => none
        | some n =>
          let mask := ((2 ^ src_size - 1) <<< (dst_bit % 8)) % 256
          writeByteAcc mem (dst_bit / 8)
            ((n &&& (mask ^^^ 255)) ||| ((wv <<< (dst_bit % 8)) &&& mask))
      else
        match writeByteAcc mem (dst_bit / 8) wvalue with
        | none => none
        | some mem1 => writeEntryLoop mem1 v (src_bit + 8) (dst_bit + 8) (src_bit_remaining - 8)
termination_by src_bit_remaining
decreasing_by simp_wf; omega

/-- `CMOS.WriteEntry`: verify the operation, cap the copied width at
`len(v)*8`, and run the copy loop from bit 0 of `v` to bit `e.bit` of CMOS. -/
def CMOS.WriteEntry (mem : Mem) (e : CMOSEntry) (v : List Nat) : Option Mem :=
  if verifyCMOSOp e then
    writeEntryLoop mem v 0 e.bit (min e.length (8 * v.length))
  else none

/-- The loop of `CMOS.ReadEntry`.  Whole source bytes are copied; the final
partial byte is shifted and masked.  Writing outside the result buffer (a Go
panic) is modelled as `none`. -/
def readEntryLoop (mem : Mem) (src_bit dst_bit src_bit_remaining : Nat) (v : List Nat) :
    Option (List Nat) :=
  if src_bit_remaining = 0 then some v
  else
    match readByteAcc mem (src_bit / 8) with
    | none => none
    | some n =>
      if 8 > src_bit_remaining then
        let src_size := src_bit_remaining
        let n1 := (n >>> (src_bit % 8)) &&& (2 ^ src_size - 1)
        if dst_bit / 8 < v.length then
          readEntryLoop mem (src_bit + src_size) (dst_bit + src_size)
            (src_bit_remaining - src_size) (v.set (dst_bit / 8) n1)
        else none
      else
        if dst_bit / 8 < v.length then
          readEntryLoop mem (src_bit + 8) (dst_bit + 8) (src_bit_remaining - 8)
            (v.set (dst_bit / 8) n)
        else none
termination_by src_bit_remaining
decreasing_by all_goals simp_wf; omega

/-- `CMOS.ReadEntry`: verify the operation, allocate `(length+7)/8` bytes for
a string entry and 8 bytes otherwise, and copy `e.length` bits out of CMOS
starting at bit `e.bit`. -/
def CMOS.ReadEntry (mem : Mem) (e : CMOSEntry) : Option (List Nat) :=
  if verifyCMOSOp e then
    readEntryLoop mem e.bit 0 e.length
      (List.replicate (if e.config = CMOSEntryString then (e.length + 7) / 8 else 8) 0)
  else none

/-- `CMOSChecksum`: summed byte range `[start, end]` and the byte index of the
two-byte checksum slot.  The Go field `end` is a Lean keyword, so it is named
`end_` here. -/
structure CMOSChecksum where
  start : Nat
  end_ : Nat
  index : Nat
  deriving DecidableEq, Repr

/-- `NewCMOSChecksum(start, end, index)`: arguments in bits; checks alignment
(`start%8==0`, `end%8==7`, `index%8==0`), `end > start`, converts to bytes,
checks all three in 14..255, and rejects when
`checkAreaOverLap(start, end-start+1, index, index+1)` — note the source
passes `index+1` as the second *length*. -/
def NewCMOSChecksum (start end_ index : Nat) : Option CMOSChecksum :=
  if start % 8 ≠ 0 then none
  else if end_ % 8 ≠ 7 then none
  else if index % 8 ≠ 0 then none
  else if end_ ≤ start then none
  else
    let startB := start / 8
    let endB := end_ / 8
    let indexB := index / 8
    if !verifyCMOSByteIndex startB || !verifyCMOSByteIndex endB then none
    else if !verifyCMOSByteIndex indexB then none
    else if checkAreaOverLap startB (endB - startB + 1) indexB (indexB + 1) then none
    else some { start := startB, end_ := endB, index := indexB }

/-- `CMOS.ReadChecksum`: two bytes at `index`, `index+1`, big-endian, as uint16. -/
def CMOS.ReadChecksum (mem : Mem) (c : CMOSChecksum) : Option Nat :=
  match readByteAcc mem c.index with
  | none => none
  | some b0 =>
    match readByteAcc mem (c.index + 1) with
    | none => none
    | some b1 => some (((b0 <<< 8) + b1) % 65536)

/-- `CMOS.WriteChecksum`: writes `byte(sum>>8)` at `index` then `byte(sum&0xFF)`
at `index+1`.  Returns the memory after the bytes that were written (a failed
second write leaves the first in place) and whether the whole write succeeded. -/
def CMOS.WriteChecksum (mem : Mem) (c : CMOSChecksum) (sum : Nat) : Mem × Bool :=
  match writeByteAcc mem c.index ((sum >>> 8) % 256) with
  | none => (mem, false)
  | some mem1 =>
    match writeByteAcc mem1 (c.index + 1) (sum &&& 255) with
    | none => (mem1, false)
    | some mem2 => (mem2, true)

/-- The loop of `CMOS.ComputeChecksum`: `sum += uint16(b)` over the listed
byte indices, with uint16 wrap-around. -/
def computeChecksumLoop (mem : Mem) : List Nat → Nat → Option Nat
  | [], sum => some sum
  | i :: rest, sum =>
    match readByteAcc mem i with
    | none => none
    | some b => computeChecksumLoop mem rest ((sum + b) % 65536)

/-- `CMOS.ComputeChecksum`: sum of the bytes in the closed range
`[c.start, c.end]` as unsigned 16-bit with wrap. -/
def CMOS.ComputeChecksum (mem : Mem) (c : CMOSChecksum) : Option Nat :=
  computeChecksumLoop mem (List.range' c.start (c.end_ + 1 - c.start)) 0

/-- A CMOS enumeration: Go maps from value to text and from text to value. -/
structure CMOSEnum where
  itos : Nat → Option String
  stoi : String → Option Nat

/-- `CMOSEnumItem`: `(id, value, text)`. -/
structure CMOSEnumItem where
  id : Nat
  value : Nat
  text : String
  deriving DecidableEq, Repr

/-- `Layout`: enums by id, entries by name, the entry list kept (supposedly)
sorted by starting bit, and the checksum descriptor. -/
structure Layout where
  enums : Nat → Option CMOSEnum
  entries : String → Option CMOSEntry
  entrieslist : List CMOSEntry
  cmosChecksum : CMOSChecksum

/-- `NewLayout`: empty maps and the default checksum descriptor
`NewCMOSChecksum(392, 1007, 1008)` (the error is ignored in the source). -/
def NewLayout : Layout :=
  { enums := fun _ => none
    entries := fun _ => none
    entrieslist := []
    cmosChecksum := (NewCMOSChecksum 392 1007 1008).getD ⟨0, 0, 0⟩ }

/-- The insertion position computed by the loop in `Layout.AddCMOSEntry`:
`pos` is left at the first index whose entry has a larger starting bit, and at
`len-1` when there is none. -/
def addEntryPos (list : List CMOSEntry) (entry : CMOSEntry) : Nat :=
  match list.findIdx? (fun e => decide (entry.bit < e.bit)) with
  | some i => i
  | none => list.length - 1

/-- `Layout.AddCMOSEntry`: verify the entry, compute the insertion position,
reject when the new entry overlaps `entrieslist[pos-1]` (if `pos > 0`) or
`entrieslist[pos]`, insert at `pos` (via append-copy-set in the source) and
register the name in the entries map. -/
def Layout.AddCMOSEntry (l : Layout) (entry : CMOSEntry) : Option Layout :=
  if !verifyCMOSEntry entry then none
  else
    let pos := addEntryPos l.entrieslist entry
    if l.entrieslist.length > 0 &&
        (decide (pos > 0) && entry.IsOverlap (l.entrieslist.getD (pos - 1) default) ||
          entry.IsOverlap (l.entrieslist.getD pos default)) then
      none
    else
      some { l with
              entrieslist := l.entrieslist.take pos ++ entry :: l.entrieslist.drop pos
              entries := fun nm => if nm = entry.name then some entry else l.entries nm }

/-- `Layout.FindCMOSEntry`. -/
def Layout.FindCMOSEntry (l : Layout) (name : String) : Option CMOSEntry :=
  l.entries name

/-- `Layout.AddCMOSEnum`: get or create the enum for `item.id` and store the
item in both maps (an existing value or text key is overwritten). -/
def Layout.AddCMOSEnum (l : Layout) (item : CMOSEnumItem) : Layout :=
  let enum :=
    match l.enums item.id with
    | some en => en
    | none => { itos := fun _ => none, stoi := fun _ => none }
  let enum1 : CMOSEnum :=
    { itos := fun value => if value = item.value then some item.text else enum.itos value
      stoi := fun text => if text = item.text then some item.value else enum.stoi text }
  { l with enums := fun i => if i = item.id then some enum1 else l.enums i }

/-- `Layout.FindCMOSEnumText(id, value)`. -/
def Layout.FindCMOSEnumText (l : Layout) (id value : Nat) : Option String :=
  match l.enums id with
  | none => none
  | some enum => enum.itos value

/-- `Layout.FindCMOSEnumValue(id, text)`. -/
def Layout.FindCMOSEnumValue (l : Layout) (id : Nat) (text : String) : Option Nat :=
  match l.enums id with
  | none => none
  | some enum => enum.stoi text

/-- `binary.LittleEndian.PutUint64` into an 8-byte buffer: `v[i] = byte(n >> 8*i)`. -/
def putUint64LE (n : Nat) : List Nat :=
  (List.range 8).map (fun i => n / 2 ^ (8 * i) % 256)

/-- `binary.LittleEndian.Uint64` generalized to any byte list: little-endian value. -/
def leUint (v : List Nat) : Nat :=
  v.foldr (fun b acc => b + 256 * acc) 0

/-- The bytes of a Go string (`[]byte(s)`, UTF-8). -/
def strBytes (s : String) : List Nat :=
  s.toUTF8.toList.map (fun b => b.toNat)

/-- A dynamically-typed Go `interface{}` value passed to `WriteCMOSParameter`:
either a string or a uint64. -/
inductive GoValue where
  | str (s : String)
  | u64 (n : Nat)

/-- The error kinds returned by `NVRAM.Open` that the claims distinguish. -/
inductive OpenErr where
  | accessInUse
  | otherErr
  deriving DecidableEq, Repr

/-- The control flow of `NVRAM.Open`, with the layout load and the accessor
open as oracles (they are file/device IO).  Returns the process-wide lock
state after the call and the returned error, if any.  The source has no
release of the lock on its error paths. -/
def NVRAM.Open (lockstate : Bool) (layoutOk : Bool) (accessorOk : Bool) :
    Bool × Option OpenErr :=
  if lockstate then (lockstate, some OpenErr.accessInUse)
  else
    -- compare-and-swap succeeded: the lock is now held
    if !layoutOk then (true, some OpenErr.otherErr)
    else if !accessorOk then (true, some OpenErr.otherErr)
    else (true, none)

/-- What `NVRAM.Close` left behind: the accessor memory, the `modified` flag,
whether the lock was released and the accessor closed, and whether an error
was returned to the caller. -/
structure CloseResult where
  mem : Mem
  modified : Bool
  lockReleased : Bool
  accessorClosed : Bool
  errReturned : Bool

/-- `NVRAM.Close`: the deferred store always releases the lock; if `modified`,
compute and write the checksum, clearing `modified` only on success.  The
`sum, err := ...` inside the `if` shadows the named return value, so a
checksum error never reaches the caller: the returned error is only the
accessor close result (nil for an open accessor). -/
def NVRAM.Close (mem : Mem) (cs : CMOSChecksum) (modified : Bool) : CloseResult :=
  let step : Mem × Bool :=
    if modified then
      match CMOS.ComputeChecksum mem cs with
      | none => (mem, modified)
      | some sum =>
        match CMOS.WriteChecksum mem cs sum with
        | (mem1, true) => (mem1, false)
        | (mem1, false) => (mem1, modified)
    else (mem, modified)
  { mem := step.1
    modified := step.2
    lockReleased := true
    accessorClosed := true
    errReturned := false }

/-- `NVRAM.WriteCMOSParameter`: look the entry up (the name `check_sum` is
reserved), build the write buffer per config kind, call `CMOS.WriteEntry` and
set `modified` on success.  A failed type assertion assigns an error that is
never returned (the source is missing a `return`), so the branch falls
through with the zero value (`""` or `0`).  Returns the error, the memory and
the `modified` flag afterwards. -/
def NVRAM.WriteCMOSParameter (l : Layout) (mem : Mem) (modified : Bool)
    (name : String) (value : GoValue) : Option String × Mem × Bool :=
  match l.FindCMOSEntry name with
  | none => (some "CMOS parameter not found.", mem, modified)
  | some e =>
    if name = "check_sum" then (some "CMOS parameter not found.", mem, modified)
    else
      let branch : Except String (List Nat) :=
        if e.config = CMOSEntryString then
          let s := match value with | GoValue.str s => s | GoValue.u64 _ => ""
          if decide (e.length < 8 * (strBytes s).length) then
            Except.error "value too wide"
          else
            Except.ok ((List.range ((e.length + 7) / 8)).map (fun i => (strBytes s).getD i 0))
        else if e.config = CMOSEntryEnum then
          let s := match value with | GoValue.str s => s | GoValue.u64 _ => ""
          match l.FindCMOSEnumValue e.config_id s with
          | none => Except.error "Bad value for parameter"
          | some n =>
            if decide (e.length < 64) && decide (n ≥ 2 ^ e.length) then
              Except.error "Enum value is too wide"
            else Except.ok (putUint64LE n)
        else if e.config = CMOSEntryHex then
          let n := match value with | GoValue.u64 n => n | GoValue.str _ => 0
          if decide (e.length < 64) && decide (n ≥ 2 ^ e.length) then
            Except.error "value too wide"
          else Except.ok (putUint64LE n)
        else Except.ok []
      match branch with
      | Except.error msg => (some msg, mem, modified)
      | Except.ok v =>
        match CMOS.WriteEntry mem e v with
        | some mem1 => (none, mem1, true)
        | none => (some "write failed", mem, modified)

/-! ### Concrete fixtures used by the claim theorems -/

/-- Entry `bit=200, length=8, kind=h`. -/
def entA : CMOSEntry := ⟨200, 8, CMOSEntryHex, 0, "a"⟩

/-- Entry `bit=304, length=8, kind=h` (larger bit than every earlier entry). -/
def entB : CMOSEntry := ⟨304, 8, CMOSEntryHex, 0, "b"⟩

/-- Entry `bit=205, length=2, kind=h`: overlaps `entA` over bits 205..206. -/
def entC : CMOSEntry := ⟨205, 2, CMOSEntryHex, 0, "c"⟩

/-- Entry `bit=120, length=8, kind=h` (spec scenario S2). -/
def entSpeed : CMOSEntry := ⟨120, 8, CMOSEntryHex, 0, "speed"⟩

/-- Entry `bit=115, length=1, kind=h` (spec scenario S1: unaligned, one bit). -/
def entFlag : CMOSEntry := ⟨115, 1, CMOSEntryHex, 0, "flag"⟩

/-- A layout whose only entry is `entSpeed`. -/
def layoutSpeed : Layout :=
  { NewLayout with entries := fun nm => if nm = "speed" then some entSpeed else none }

/-- An error-free CMOS whose every byte reads 255. -/
def memFF : Mem := someMem (fun _ => 255)

/-- An error-free CMOS whose every byte reads 240 (`0xF0`). -/
def memF0 : Mem := someMem (fun _ => 240)

/-- Enum items `(7, 0, "off")` then `(7, 1, "off")`: a duplicate text. -/
def layoutOffOff : Layout :=
  (NewLayout.AddCMOSEnum ⟨7, 0, "off"⟩).AddCMOSEnum ⟨7, 1, "off"⟩

/-- A CMOS whose byte 50 fails to read (an IO error inside the default
checksum range). -/
def memBad50 : Mem := fun i => if i = 50 then none else some 0

/-- The default checksum descriptor in byte units: range `[49, 125]`, slot at
126 (`NewCMOSChecksum 392 1007 1008`). -/
def csDefault : CMOSChecksum := ⟨49, 125, 126⟩

/-! ### Specification helpers (not from the source; used to state theorems) -/

/-- CMOS bit `i` as seen through an accessor: bit `i % 8` of byte `i / 8`. -/
def bitAt (mem : Mem) (i : Nat) : Option Bool :=
  (mem (i / 8)).map (fun b => b.testBit (i % 8))

/-- The bytes `ReadEntry`'s loop produces for `rem` bits starting at a
byte-aligned source byte `j`: whole bytes verbatim, the final partial byte
masked to its low `rem % 8` bits. -/
def memWindow (m : Nat → Nat) (j rem : Nat) : List Nat :=
  if rem = 0 then []
  else if rem < 8 then [m j &&& (2 ^ rem - 1)]
  else m j :: memWindow m (j + 1) (rem - 8)
termination_by rem
decreasing_by simp_wf; omega

/-- A sequence of `AddCMOSEnum` calls. -/
def addCMOSEnums (l : Layout) (items : List CMOSEnumItem) : Layout :=
  items.foldl Layout.AddCMOSEnum l

/-! ### Claim theorems (evaluations and counterexamples first) -/

/-- C3: the code accepts the `AddCMOSEntry` sequence with bits 200 (length 8),
304 (length 8) and 205 (length 2), after which the entry list is `[205, 304,
200]` — not sorted by bit — and the accepted 205-entry overlaps the
200-entry.  The insertion position loop leaves `pos = len-1` when the new
entry's bit is the largest, so entry 304 is inserted at position 0 and the
later overlap check looks at the wrong neighbours. -/
theorem addCMOSEntry_accepts_unsorted_and_overlap :
    (((NewLayout.AddCMOSEntry entA).bind (fun l => l.AddCMOSEntry entB)).bind
        (fun l => l.AddCMOSEntry entC)).map (fun l => l.entrieslist.map CMOSEntry.bit) =
      some [205, 304, 200] ∧
    entC.IsOverlap entA = true := by
  decide

/-- C5: when `Open` claims the lock and the layout load then fails, the lock
is left held (`lockstate` stays `true`), so a subsequent `Open` fails with
`AccessInUse` — `Open` has no release on its error paths. -/
theorem open_error_keeps_lock_held :
    NVRAM.Open false false true = (true, some OpenErr.otherErr) ∧
    NVRAM.Open true true true = (true, some OpenErr.accessInUse) := by
  decide

/-- C6: writing a string value to the Hex entry `speed` (bit 120, length 8)
returns no error, overwrites the entry's byte (index 15) with 0, and sets the
`modified` flag: the type-mismatch error assigned in the source is dead
because the `case` falls through to `WriteEntry` without returning. -/
theorem writeCMOSParameter_type_mismatch_still_writes :
    (NVRAM.WriteCMOSParameter layoutSpeed memFF false "speed" (GoValue.str "x")).1 = none ∧
    (NVRAM.WriteCMOSParameter layoutSpeed memFF false "speed" (GoValue.str "x")).2.2 = true ∧
    (NVRAM.WriteCMOSParameter layoutSpeed memFF false "speed" (GoValue.str "x")).2.1 15 =
      some 0 ∧
    memFF 15 = some 255 := by
  simp [NVRAM.WriteCMOSParameter, Layout.FindCMOSEntry, layoutSpeed, entSpeed, NewLayout,
    CMOS.WriteEntry, writeEntryLoop, verifyCMOSOp, verifyCMOSEntry, CMOSEntryHex,
    CMOSEntryString, CMOSEntryEnum, CMOSEntryReserved, cmosSize, cmosRTCAreaSize,
    putUint64LE, memFF, someMem, writeByteAcc, readByteAcc, verifyCMOSByteIndex,
    List.range, List.range.loop]

/-- C7: the descriptor `(start=128, end=151, index=112)` (bits) satisfies every
condition of the claim — alignments, `end > start`, byte offsets 16, 18, 14
all in 14..255, and the summed byte range `[16, 18]` disjoint from the
two-byte slot `[14, 15]` — yet `NewCMOSChecksum` rejects it, because the
overlap check passes `index+1` as a length and so tests `[14, 28]`. -/
theorem newCMOSChecksum_rejects_disjoint_descriptor :
    NewCMOSChecksum 128 151 112 = none ∧
    (128 % 8 = 0 ∧ 151 % 8 = 7 ∧ 112 % 8 = 0 ∧ 128 < 151) ∧
    (verifyCMOSByteIndex 16 && verifyCMOSByteIndex 18 && verifyCMOSByteIndex 14) = true ∧
    checkAreaOverLap 16 3 14 2 = false := by
  decide

/-- C9: closing a dirty session whose checksum computation fails (byte 50 of
the summed range reports an IO error) still closes the accessor and releases
the lock, but returns no error: the checksum error is bound to a shadowing
`err` and discarded. -/
theorem close_discards_checksum_error :
    (NVRAM.Close memBad50 csDefault true).lockReleased = true ∧
    (NVRAM.Close memBad50 csDefault true).accessorClosed = true ∧
    (NVRAM.Close memBad50 csDefault true).errReturned = false ∧
    (NVRAM.Close memBad50 csDefault true).modified = true ∧
    CMOS.ComputeChecksum memBad50 csDefault = none := by
  decide

/-- C8 (counterexample): after adding `(7, 0, "off")` and then `(7, 1, "off")`
— a sequence of `AddCMOSEnum` calls with a duplicate text — the text lookup at
`(7, 0)` succeeds with `"off"`, but the value lookup at `(7, "off")` returns 1,
not 0: the lookups are not mutually inverse for arbitrary call sequences. -/
theorem enum_lookups_not_inverse_after_duplicate_text :
    Layout.FindCMOSEnumText layoutOffOff 7 0 = some "off" ∧
    Layout.FindCMOSEnumValue layoutOffOff 7 "off" = some 1 := by
  decide

/-! ### Basic helper lemmas -/

theorem getElem?_eq_some_getD (l : List Nat) (i : Nat) (h : i < l.length) :
    l[i]? = some (l.getD i 0) := by
  rw [List.getElem?_eq_getElem h, List.getD_eq_getElem l 0 h]

theorem verifyCMOSByteIndex_eq_true (j : Nat) (h1 : 14 ≤ j) (h2 : j < 256) :
    verifyCMOSByteIndex j = true := by
  simp only [verifyCMOSByteIndex, cmosRTCAreaSize, cmosSize, Bool.and_eq_true,
    decide_eq_true_eq]
  omega

theorem readByteAcc_someMem (m : Nat → Nat) (j : Nat) (h1 : 14 ≤ j) (h2 : j < 256) :
    readByteAcc (someMem m) j = some (m j) := by
  rw [readByteAcc, if_pos (verifyCMOSByteIndex_eq_true j h1 h2)]
  rfl

theorem writeByteAcc_someMem (m : Nat → Nat) (j b : Nat) (h1 : 14 ≤ j) (h2 : j < 256) :
    writeByteAcc (someMem m) j b = some (someMem (fun i => if i = j then b else m i)) := by
  rw [writeByteAcc, if_pos (verifyCMOSByteIndex_eq_true j h1 h2)]
  show some _ = some _
  congr 1
  funext i
  by_cases hi : i = j <;> simp [someMem, hi]

theorem verifyCMOSOp_facts (e : CMOSEntry) (h : verifyCMOSOp e = true) :
    112 ≤ e.bit ∧ e.bit + e.length ≤ 2048 ∧ (e.bit % 8 = 0 ∨ e.bit % 8 + e.length ≤ 8) ∧
      (e.config = CMOSEntryString ∨ e.length ≤ 64) := by
  unfold verifyCMOSOp verifyCMOSEntry cmosSize cmosRTCAreaSize at h
  split_ifs at h with h1 h2 h3 h4 h5 <;> simp_all only [Bool.false_eq_true]
  have hb : ¬ e.bit < 8 * 14 := by
    intro hc
    exact h2 (by simpa using hc)
  have hr : e.bit < 8 * 256 ∧ e.bit + e.length ≤ 8 * 256 := by
    constructor
    · by_contra hc
      exact h4 (by simp only [Bool.or_eq_true, decide_eq_true_eq]; omega)
    · by_contra hc
      exact h4 (by simp only [Bool.or_eq_true, decide_eq_true_eq]; omega)
  refine ⟨by omega, by omega, ?_, ?_⟩
  · by_cases hz : e.bit % 8 = 0
    · exact Or.inl hz
    · right
      have h5a : e.bit / 8 = (e.bit + e.length - 1) / 8 := by
        by_contra hne
        exact h5 (by simp only [Bool.and_eq_true, decide_eq_true_eq]; exact ⟨by omega, hne⟩)
      omega
  · by_cases hs : e.config = CMOSEntryString
    · exact Or.inl hs
    · right
      by_contra hl
      refine h3 ?_
      simp only [Bool.and_eq_true, Bool.not_eq_true', decide_eq_false_iff_not,
        decide_eq_true_eq]
      exact ⟨by omega, hs⟩

/-! ### Bit-twiddling lemmas for the partial-byte read-modify-write -/

theorem two_pow_sub_one_lt_256 (k : Nat) (hk : k ≤ 8) : 2 ^ k - 1 < 256 := by
  have : 2 ^ k ≤ 2 ^ 8 := Nat.pow_le_pow_right (by norm_num) hk
  omega

/-- Bits outside `[s, s+k)` (within the low byte) survive the masked merge. -/
theorem testBit_merge_outside (n wv s k p : Nat) (hp : p < 8) (hout : p < s ∨ s + k ≤ p) :
    ((n &&& ((((2 ^ k - 1) <<< s) % 256) ^^^ 255)) |||
        ((wv <<< s) &&& (((2 ^ k - 1) <<< s) % 256))).testBit p = n.testBit p := by
  have h255 : (255 : Nat) = 2 ^ 8 - 1 := by norm_num
  have h256 : (256 : Nat) = 2 ^ 8 := by norm_num
  rw [h255, h256]
  simp only [Nat.testBit_or, Nat.testBit_and, Nat.testBit_xor, Nat.testBit_mod_two_pow,
    Nat.testBit_shiftLeft, Nat.testBit_two_pow_sub_one]
  by_cases hs : s ≤ p
  · have hk : ¬(p - s < k) := by omega
    simp [hp, hs, hk]
  · simp [hp, hs]

/-- Shifting back and masking recovers the merged-in value. -/
theorem extract_merge (n wv s k : Nat) (hsk : s + k ≤ 8) (hwv : wv < 2 ^ k) :
    (((n &&& ((((2 ^ k - 1) <<< s) % 256) ^^^ 255)) |||
        ((wv <<< s) &&& (((2 ^ k - 1) <<< s) % 256))) >>> s) &&& (2 ^ k - 1) = wv := by
  have h255 : (255 : Nat) = 2 ^ 8 - 1 := by norm_num
  have h256 : (256 : Nat) = 2 ^ 8 := by norm_num
  apply Nat.eq_of_testBit_eq
  intro i
  rw [h255, h256]
  simp only [Nat.testBit_and, Nat.testBit_or, Nat.testBit_xor, Nat.testBit_mod_two_pow,
    Nat.testBit_shiftLeft, Nat.testBit_shiftRight, Nat.testBit_two_pow_sub_one]
  by_cases hik : i < k
  · have h1 : s + i < 8 := by omega
    have h2 : s ≤ s + i := by omega
    have h3 : s + i - s = i := by omega
    simp [h1, h2, h3, hik]
  · have : wv.testBit i = false := by
      apply Nat.testBit_lt_two_pow
      calc wv < 2 ^ k := hwv
        _ ≤ 2 ^ i := Nat.pow_le_pow_right (by norm_num) (by omega)
    simp [hik, this]

/-- The aligned form: masking the merged byte with the same low mask recovers
the merged-in low bits. -/
theorem merge_and_mask (x y k : Nat) (hk : k ≤ 8) :
    ((x &&& ((2 ^ k - 1) ^^^ 255)) ||| (y &&& (2 ^ k - 1))) &&& (2 ^ k - 1) =
      y &&& (2 ^ k - 1) := by
  have h255 : (255 : Nat) = 2 ^ 8 - 1 := by norm_num
  apply Nat.eq_of_testBit_eq
  intro i
  rw [h255]
  simp only [Nat.testBit_and, Nat.testBit_or, Nat.testBit_xor, Nat.testBit_two_pow_sub_one]
  by_cases hik : i < k
  · have h8 : i < 8 := by omega
    simp [hik, h8]
  · simp [hik]

/-! ### Frame property of the write loop -/

/-- Inverting a successful `readByteAcc`. -/
theorem readByteAcc_some_inv (mem : Mem) (j n : Nat) (h : readByteAcc mem j = some n) :
    mem j = some n := by
  unfold readByteAcc at h
  split at h
  · exact h
  · cases h

/-- Inverting a successful `writeByteAcc`: the result is a pointwise update. -/
theorem writeByteAcc_some_inv (mem : Mem) (j b : Nat) (mem1 : Mem)
    (h : writeByteAcc mem j b = some mem1) :
    mem1 = fun i => if i = j then some b else mem i := by
  unfold writeByteAcc at h
  split at h
  · split at h
    · injection h with h
      exact h.symm
    · cases h
  · cases h

/-- `bitAt` through a single-byte update. -/
theorem bitAt_update (mem : Mem) (j b i : Nat) :
    bitAt (fun x => if x = j then some b else mem x) i =
      if i / 8 = j then some (b.testBit (i % 8)) else bitAt mem i := by
  unfold bitAt
  by_cases h : i / 8 = j <;> simp [h]

/-- The write loop touches no byte outside `[dst/8, (dst+rem-1)/8]` and no bit
outside `[dst, dst+rem)`.  The alignment hypothesis mirrors the entry
invariant: the destination is byte-aligned, or the whole write fits in one
byte. -/
theorem writeEntryLoop_frame :
    ∀ (rem : Nat) (mem : Mem) (v : List Nat) (src dst : Nat) (mem1 : Mem),
    dst % 8 = 0 ∨ dst % 8 + rem ≤ 8 →
    writeEntryLoop mem v src dst rem = some mem1 →
    (∀ j, 8 * j + 8 ≤ dst ∨ dst + rem ≤ 8 * j → mem1 j = mem j) ∧
    (∀ i, i < dst ∨ dst + rem ≤ i → bitAt mem1 i = bitAt mem i) := by
  intro rem
  induction rem using Nat.strong_induction_on with
  | _ rem ih =>
    intro mem v src dst mem1 halign hloop
    rw [writeEntryLoop.eq_def] at hloop
    by_cases h0 : rem = 0
    · rw [if_pos h0] at hloop
      injection hloop with hloop
      subst hloop
      exact ⟨fun j _ => rfl, fun i _ => rfl⟩
    · rw [if_neg h0] at hloop
      cases hv : v[src / 8]? with
      | none => rw [hv] at hloop; cases hloop
      | some wvalue =>
        rw [hv] at hloop
        simp only [] at hloop
        by_cases hpart : 8 > rem
        · rw [if_pos hpart] at hloop
          cases hr : readByteAcc mem (dst / 8) with
          | none => rw [hr] at hloop; cases hloop
          | some n =>
            rw [hr] at hloop
            have hmem1 := writeByteAcc_some_inv _ _ _ _ hloop
            have hmemn := readByteAcc_some_inv _ _ _ hr
            subst hmem1
            constructor
            · intro j hj
              have hne : j ≠ dst / 8 := by omega
              simp [hne]
            · intro i hi
              rw [bitAt_update]
              by_cases hb : i / 8 = dst / 8
              · rw [if_pos hb]
                unfold bitAt
                rw [hb, hmemn]
                exact congrArg some
                  (testBit_merge_outside n _ (dst % 8) rem (i % 8) (by omega) (by omega))
              · rw [if_neg hb]
        · rw [if_neg hpart] at hloop
          cases hw : writeByteAcc mem (dst / 8) wvalue with
          | none => rw [hw] at hloop; cases hloop
          | some mem2 =>
            rw [hw] at hloop
            simp only [] at hloop
            have hd8 : dst % 8 = 0 := by omega
            have hmem2 := writeByteAcc_some_inv _ _ _ _ hw
            obtain ⟨ihbyte, ihbit⟩ :=
              ih (rem - 8) (by omega) mem2 v (src + 8) (dst + 8) mem1 (by omega) hloop
            constructor
            · intro j hj
              have h1 : mem1 j = mem2 j := ihbyte j (by omega)
              have hne : j ≠ dst / 8 := by omega
              rw [h1, hmem2]
              simp [hne]
            · intro i hi
              have h1 : bitAt mem1 i = bitAt mem2 i := ihbit i (by omega)
              have hne : i / 8 ≠ dst / 8 := by omega
              rw [h1]
              unfold bitAt
              rw [hmem2]
              simp [hne]

/-- C2: a successful `WriteEntry` of entry `E` changes no CMOS bit outside the
closed range `[E.bit, E.bit+E.length-1]`: every byte whose bits all lie
outside keeps its value, and in a partially written byte the bits outside the
range are preserved by the read-modify-write mask. -/
theorem writeEntry_frame (mem : Mem) (e : CMOSEntry) (v : List Nat) (mem1 : Mem)
    (h : CMOS.WriteEntry mem e v = some mem1) :
    (∀ j, 8 * j + 8 ≤ e.bit ∨ e.bit + e.length ≤ 8 * j → mem1 j = mem j) ∧
    (∀ i, i < e.bit ∨ e.bit + e.length ≤ i → bitAt mem1 i = bitAt mem i) := by
  unfold CMOS.WriteEntry at h
  cases hop : verifyCMOSOp e with
  | false => rw [hop] at h; cases h
  | true =>
    rw [hop] at h
    rw [if_pos rfl] at h
    obtain ⟨hbit, hlen2, halign, _⟩ := verifyCMOSOp_facts e hop
    have halign2 : e.bit % 8 = 0 ∨ e.bit % 8 + min e.length (8 * v.length) ≤ 8 := by
      rcases halign with h1 | h2
      · exact Or.inl h1
      · right; omega
    obtain ⟨hbyte, hbits⟩ := writeEntryLoop_frame _ mem v 0 e.bit mem1 halign2 h
    constructor
    · intro j hj
      exact hbyte j (by omega)
    · intro i hi
      exact hbits i (by omega)

/-- C2 witness: writing the one-bit entry `flag` at bit 115 into a CMOS of
`0xF0` bytes succeeds, and bit 114 and byte 13 are unchanged. -/
theorem writeEntry_frame_witness :
    ∃ mem1, CMOS.WriteEntry memF0 entFlag (putUint64LE 1) = some mem1 ∧
      bitAt mem1 114 = bitAt memF0 114 ∧ mem1 13 = memF0 13 := by
  have hsome : (CMOS.WriteEntry memF0 entFlag (putUint64LE 1)).isSome = true := by
    simp [CMOS.WriteEntry, writeEntryLoop, verifyCMOSOp, verifyCMOSEntry, CMOSEntryHex,
      CMOSEntryString, CMOSEntryEnum, CMOSEntryReserved, cmosSize, cmosRTCAreaSize,
      putUint64LE, memF0, someMem, writeByteAcc, readByteAcc, verifyCMOSByteIndex,
      entFlag, List.range, List.range.loop]
  obtain ⟨mem1, hmem1⟩ := Option.isSome_iff_exists.mp hsome
  obtain ⟨hbyte, hbits⟩ := writeEntry_frame memF0 entFlag (putUint64LE 1) mem1 hmem1
  exact ⟨mem1, hmem1, hbits 114 (by decide), hbyte 13 (by decide)⟩

/-! ### Step lemmas unfolding single loop iterations -/

theorem writeEntryLoop_zero (mem : Mem) (v : List Nat) (src dst : Nat) :
    writeEntryLoop mem v src dst 0 = some mem := by
  rw [writeEntryLoop.eq_def]
  rfl

theorem writeEntryLoop_last (mem : Mem) (v : List Nat) (src dst rem : Nat)
    (h0 : rem ≠ 0) (hp : rem < 8) (wvalue : Nat) (hv : v[src / 8]? = some wvalue)
    (n : Nat) (hn : readByteAcc mem (dst / 8) = some n) :
    writeEntryLoop mem v src dst rem =
      writeByteAcc mem (dst / 8)
        ((n &&& ((((2 ^ rem - 1) <<< (dst % 8)) % 256) ^^^ 255)) |||
          ((((wvalue >>> (src % 8)) &&& (2 ^ rem - 1)) <<< (dst % 8)) &&&
            (((2 ^ rem - 1) <<< (dst % 8)) % 256))) := by
  rw [writeEntryLoop.eq_def, if_neg h0, hv]
  simp only []
  rw [if_pos (by omega : 8 > rem), hn]

theorem writeEntryLoop_whole (mem : Mem) (v : List Nat) (src dst rem : Nat)
    (h8 : 8 ≤ rem) (wvalue : Nat) (hv : v[src / 8]? = some wvalue)
    (mem2 : Mem) (hw : writeByteAcc mem (dst / 8) wvalue = some mem2) :
    writeEntryLoop mem v src dst rem =
      writeEntryLoop mem2 v (src + 8) (dst + 8) (rem - 8) := by
  rw [writeEntryLoop.eq_def, if_neg (by omega : ¬ rem = 0), hv]
  simp only []
  rw [if_neg (by omega : ¬ 8 > rem), hw]

theorem readEntryLoop_zero (mem : Mem) (src dst : Nat) (v : List Nat) :
    readEntryLoop mem src dst 0 v = some v := by
  rw [readEntryLoop.eq_def]
  rfl

theorem readEntryLoop_last (mem : Mem) (src dst rem : Nat) (v : List Nat)
    (h0 : rem ≠ 0) (hp : rem < 8) (n : Nat) (hn : readByteAcc mem (src / 8) = some n)
    (hd : dst / 8 < v.length) :
    readEntryLoop mem src dst rem v =
      some (v.set (dst / 8) ((n >>> (src % 8)) &&& (2 ^ rem - 1))) := by
  rw [readEntryLoop.eq_def, if_neg h0, hn]
  simp only []
  rw [if_pos (by omega : 8 > rem), if_pos hd, Nat.sub_self, readEntryLoop_zero]

theorem readEntryLoop_whole (mem : Mem) (src dst rem : Nat) (v : List Nat)
    (h8 : 8 ≤ rem) (n : Nat) (hn : readByteAcc mem (src / 8) = some n)
    (hd : dst / 8 < v.length) :
    readEntryLoop mem src dst rem v =
      readEntryLoop mem (src + 8) (dst + 8) (rem - 8) (v.set (dst / 8) n) := by
  rw [readEntryLoop.eq_def, if_neg (by omega : ¬ rem = 0), hn]
  simp only []
  rw [if_neg (by omega : ¬ 8 > rem), if_pos hd]

/-! ### Byte-level characterization of an aligned write -/

/-- A successful byte-aligned write through the loop: whole destination bytes
take the source bytes verbatim, the final partial destination byte is the
read-modify-write merge, and everything else is untouched. -/
theorem writeEntryLoop_spec :
    ∀ (rem : Nat) (m : Nat → Nat) (v : List Nat) (src dst : Nat),
    src % 8 = 0 → dst % 8 = 0 →
    src + rem ≤ 8 * v.length → 112 ≤ dst → dst + rem ≤ 2048 →
    ∃ m1 : Nat → Nat,
      writeEntryLoop (someMem m) v src dst rem = some (someMem m1) ∧
      (∀ j, j < dst / 8 → m1 j = m j) ∧
      (∀ j, dst / 8 + (rem + 7) / 8 ≤ j → m1 j = m j) ∧
      (∀ k, k < rem / 8 → m1 (dst / 8 + k) = v.getD (src / 8 + k) 0) ∧
      (rem % 8 ≠ 0 →
        m1 (dst / 8 + rem / 8) =
          ((m (dst / 8 + rem / 8) &&& ((2 ^ (rem % 8) - 1) ^^^ 255)) |||
            (v.getD (src / 8 + rem / 8) 0 &&& (2 ^ (rem % 8) - 1)))) := by
  intro rem
  induction rem using Nat.strong_induction_on with
  | _ rem ih =>
    intro m v src dst hsrc hdst hv hlo hhi
    by_cases h0 : rem = 0
    · subst h0
      refine ⟨m, writeEntryLoop_zero _ _ _ _, fun j _ => rfl, fun j _ => rfl,
        fun k hk => absurd hk (by omega), fun hr => absurd hr (by omega)⟩
    · have hvidx : src / 8 < v.length := by omega
      have hget := getElem?_eq_some_getD v (src / 8) hvidx
      by_cases hp : rem < 8
      · -- single partial write
        have hb1 : 14 ≤ dst / 8 := by omega
        have hb2 : dst / 8 < 256 := by omega
        have hrd : readByteAcc (someMem m) (dst / 8) = some (m (dst / 8)) :=
          readByteAcc_someMem m _ hb1 hb2
        rw [writeEntryLoop_last (someMem m) v src dst rem h0 hp _ hget _ hrd,
          writeByteAcc_someMem m _ _ hb1 hb2]
        have hm : ((2 ^ rem - 1) <<< (dst % 8)) % 256 = 2 ^ rem - 1 := by
          rw [hdst, Nat.shiftLeft_zero, Nat.mod_eq_of_lt (two_pow_sub_one_lt_256 rem (by omega))]
        refine ⟨_, rfl, ?_, ?_, ?_, ?_⟩
        · intro j hj
          have : j ≠ dst / 8 := by omega
          simp [this]
        · intro j hj
          have : j ≠ dst / 8 := by omega
          simp [this]
        · intro k hk
          exact absurd hk (by omega)
        · intro _
          have hq : rem / 8 = 0 := by omega
          have hr : rem % 8 = rem := by omega
          rw [hq, hr, Nat.add_zero, if_pos rfl, hm, hsrc, hdst, Nat.shiftLeft_zero,
            Nat.shiftRight_zero, Nat.land_assoc, Nat.and_self, Nat.add_zero]
      · -- whole byte then recurse
        have hb1 : 14 ≤ dst / 8 := by omega
        have hb2 : dst / 8 < 256 := by omega
        have hw := writeByteAcc_someMem m (dst / 8) (v.getD (src / 8) 0) hb1 hb2
        rw [writeEntryLoop_whole (someMem m) v src dst rem (by omega) _ hget _ hw]
        set m2 : Nat → Nat := fun i => if i = dst / 8 then v.getD (src / 8) 0 else m i with hm2
        obtain ⟨m1, hloop, hf1, hf2, hwhole, hlastbyte⟩ :=
          ih (rem - 8) (by omega) m2 v (src + 8) (dst + 8) (by omega) (by omega)
            (by omega) (by omega) (by omega)
        have e1 : (dst + 8) / 8 = dst / 8 + 1 := by omega
        have e2 : (src + 8) / 8 = src / 8 + 1 := by omega
        refine ⟨m1, hloop, ?_, ?_, ?_, ?_⟩
        · intro j hj
          rw [hf1 j (by omega), hm2]
          simp only []
          rw [if_neg (by omega : ¬ j = dst / 8)]
        · intro j hj
          rw [hf2 j (by omega), hm2]
          simp only []
          rw [if_neg (by omega : ¬ j = dst / 8)]
        · intro k hk
          by_cases hk0 : k = 0
          · subst hk0
            rw [Nat.add_zero, hf1 (dst / 8) (by omega), hm2]
            simp
          · have hi1 : dst / 8 + k = (dst + 8) / 8 + (k - 1) := by omega
            rw [hi1, hwhole (k - 1) (by omega)]
            congr 1
            omega
        · intro hr
          have hr2 : (rem - 8) % 8 ≠ 0 := by omega
          have hi1 : dst / 8 + rem / 8 = (dst + 8) / 8 + (rem - 8) / 8 := by omega
          have hi2 : (src + 8) / 8 + (rem - 8) / 8 = src / 8 + rem / 8 := by omega
          have hi3 : (rem - 8) % 8 = rem % 8 := by omega
          rw [hi1, hlastbyte hr2, hi2, hi3, hm2]
          simp only []
          rw [if_neg (by omega : ¬ (dst + 8) / 8 + (rem - 8) / 8 = dst / 8)]

/-! ### Structural characterization of an aligned read -/

theorem take_succ_set (l : List Nat) (i b : Nat) (h : i < l.length) :
    (l.set i b).take (i + 1) = l.take i ++ [b] := by
  rw [List.set_eq_take_append_cons_drop, if_pos h, List.take_append_eq_append_take,
    List.take_take]
  have h1 : min (i + 1) i = i := by omega
  have h2 : (List.take i l).length = i := by
    rw [List.length_take]
    omega
  rw [h1, h2]
  have h3 : i + 1 - i = 1 := by omega
  rw [h3]
  rfl

theorem memWindow_length (m : Nat → Nat) :
    ∀ (rem : Nat) (j : Nat), (memWindow m j rem).length = (rem + 7) / 8 := by
  intro rem
  induction rem using Nat.strong_induction_on with
  | _ rem ih =>
    intro j
    rw [memWindow.eq_def]
    by_cases h0 : rem = 0
    · simp [h0]
    · rw [if_neg h0]
      by_cases hp : rem < 8
      · rw [if_pos hp]
        simp only [List.length_cons, List.length_nil]
        omega
      · rw [if_neg hp]
        simp only [List.length_cons]
        rw [ih (rem - 8) (by omega)]
        omega

theorem memWindow_whole (m : Nat → Nat) (j rem : Nat) (h : 8 ≤ rem) :
    memWindow m j rem = m j :: memWindow m (j + 1) (rem - 8) := by
  rw [memWindow.eq_def, if_neg (by omega : ¬ rem = 0), if_neg (by omega : ¬ rem < 8)]

theorem memWindow_small (m : Nat → Nat) (j rem : Nat) (h0 : rem ≠ 0) (h : rem < 8) :
    memWindow m j rem = [m j &&& (2 ^ rem - 1)] := by
  rw [memWindow.eq_def, if_neg h0, if_pos h]

/-- A successful byte-aligned read through the loop replaces the destination
slice of the buffer with the memory window. -/
theorem readEntryLoop_spec :
    ∀ (rem : Nat) (m : Nat → Nat) (vout : List Nat) (src dst : Nat),
    src % 8 = 0 → dst % 8 = 0 →
    112 ≤ src → src + rem ≤ 2048 → dst + rem ≤ 8 * vout.length →
    readEntryLoop (someMem m) src dst rem vout =
      some (vout.take (dst / 8) ++ memWindow m (src / 8) rem ++
        vout.drop (dst / 8 + (rem + 7) / 8)) := by
  intro rem
  induction rem using Nat.strong_induction_on with
  | _ rem ih =>
    intro m vout src dst hsrc hdst hlo hhi hout
    by_cases h0 : rem = 0
    · subst h0
      rw [readEntryLoop_zero]
      have hw0 : memWindow m (src / 8) 0 = [] := by
        rw [memWindow.eq_def]
        simp
      rw [hw0, List.append_nil]
      norm_num
    · have hb1 : 14 ≤ src / 8 := by omega
      have hb2 : src / 8 < 256 := by omega
      have hrd : readByteAcc (someMem m) (src / 8) = some (m (src / 8)) :=
        readByteAcc_someMem m _ hb1 hb2
      have hdlt : dst / 8 < vout.length := by omega
      by_cases hp : rem < 8
      · rw [readEntryLoop_last (someMem m) src dst rem vout h0 hp _ hrd hdlt,
          memWindow_small m _ rem h0 hp, hsrc, Nat.shiftRight_zero]
        have hceil : (rem + 7) / 8 = 1 := by omega
        rw [hceil, List.set_eq_take_append_cons_drop, if_pos hdlt]
        simp [List.append_assoc]
      · rw [readEntryLoop_whole (someMem m) src dst rem vout (by omega) _ hrd hdlt,
          memWindow_whole m _ rem (by omega)]
        rw [ih (rem - 8) (by omega) m (vout.set (dst / 8) (m (src / 8))) (src + 8) (dst + 8)
          (by omega) (by omega) (by omega) (by omega) (by rw [List.length_set]; omega)]
        have e1 : (dst + 8) / 8 = dst / 8 + 1 := by omega
        have e2 : (src + 8) / 8 = src / 8 + 1 := by omega
        have e3 : dst / 8 + 1 + (rem - 8 + 7) / 8 = dst / 8 + (rem + 7) / 8 := by omega
        rw [e1, e2, e3, take_succ_set vout (dst / 8) (m (src / 8)) hdlt,
          List.drop_set_of_lt _ _ (by omega : dst / 8 < dst / 8 + (rem + 7) / 8)]
        simp [List.append_assoc]

/-! ### Totality of the codec for verified entries -/

theorem writeEntry_isSome (m : Nat → Nat) (e : CMOSEntry) (v : List Nat)
    (hop : verifyCMOSOp e = true) :
    (CMOS.WriteEntry (someMem m) e v).isSome = true := by
  obtain ⟨hbit, hlen, halign, _⟩ := verifyCMOSOp_facts e hop
  unfold CMOS.WriteEntry
  rw [hop, if_pos rfl]
  by_cases halg : e.bit % 8 = 0
  · obtain ⟨m1, hloop, _⟩ :=
      writeEntryLoop_spec (min e.length (8 * v.length)) m v 0 e.bit (by omega) halg
        (by omega) (by omega) (by omega)
    rw [hloop]
    rfl
  · have hsmall : e.bit % 8 + e.length ≤ 8 := by
      rcases halign with h1 | h2
      · exact absurd h1 halg
      · exact h2
    by_cases h0 : min e.length (8 * v.length) = 0
    · rw [h0, writeEntryLoop_zero]
      rfl
    · have hget := getElem?_eq_some_getD v (0 / 8) (by omega)
      have hrd := readByteAcc_someMem m (e.bit / 8) (by omega) (by omega)
      rw [writeEntryLoop_last (someMem m) v 0 e.bit (min e.length (8 * v.length)) h0
        (by omega) _ hget _ hrd]
      rw [writeByteAcc_someMem m _ _ (by omega) (by omega)]
      rfl

theorem readEntry_some (m : Nat → Nat) (e : CMOSEntry) (hop : verifyCMOSOp e = true) :
    ∃ v1, CMOS.ReadEntry (someMem m) e = some v1 ∧
      v1.length = (if e.config = CMOSEntryString then (e.length + 7) / 8 else 8) := by
  obtain ⟨hbit, hlen, halign, hwidth⟩ := verifyCMOSOp_facts e hop
  unfold CMOS.ReadEntry
  rw [hop, if_pos rfl]
  have hNlen : e.length ≤ 8 * (if e.config = CMOSEntryString then (e.length + 7) / 8 else 8) := by
    by_cases hs : e.config = CMOSEntryString
    · rw [if_pos hs]
      omega
    · rw [if_neg hs]
      rcases hwidth with h1 | h2
      · exact absurd h1 hs
      · omega
  have hrepl := List.length_replicate
    (if e.config = CMOSEntryString then (e.length + 7) / 8 else 8) (0 : Nat)
  by_cases halg : e.bit % 8 = 0
  · rw [readEntryLoop_spec e.length m _ e.bit 0 halg (by omega) (by omega) (by omega)
      (by rw [hrepl]; omega)]
    refine ⟨_, rfl, ?_⟩
    simp only [List.length_append, List.length_take, List.length_drop, memWindow_length,
      hrepl]
    omega
  · have hsmall : e.bit % 8 + e.length ≤ 8 := by
      rcases halign with h1 | h2
      · exact absurd h1 halg
      · exact h2
    by_cases h0 : e.length = 0
    · rw [h0, readEntryLoop_zero]
      exact ⟨_, rfl, List.length_replicate _ _⟩
    · have hrd := readByteAcc_someMem m (e.bit / 8) (by omega) (by omega)
      have hdlt : 0 / 8 < (List.replicate
          (if e.config = CMOSEntryString then (e.length + 7) / 8 else 8) (0 : Nat)).length := by
        rw [hrepl]
        by_cases hs : e.config = CMOSEntryString
        · rw [if_pos hs]; omega
        · rw [if_neg hs]; omega
      rw [readEntryLoop_last (someMem m) e.bit 0 e.length _ h0 (by omega) _ hrd hdlt]
      exact ⟨_, rfl, by rw [List.length_set, hrepl]⟩

/-- C10: for every entry accepted by `verifyCMOSOp` and every input buffer,
the codec is total and in-bounds: `WriteEntry` succeeds (it reads only source
indices below `len(v)` and writes only valid CMOS bytes — any out-of-bounds
access is `none` in the model), `ReadEntry` succeeds, and the result buffer
has exactly `(length+7)/8` bytes for a string entry and 8 bytes otherwise. -/
theorem codec_total_inbounds (m : Nat → Nat) (e : CMOSEntry) (v : List Nat)
    (hop : verifyCMOSOp e = true) :
    (CMOS.WriteEntry (someMem m) e v).isSome = true ∧
    ∃ v1, CMOS.ReadEntry (someMem m) e = some v1 ∧
      v1.length = (if e.config = CMOSEntryString then (e.length + 7) / 8 else 8) :=
  ⟨writeEntry_isSome m e v hop, readEntry_some m e hop⟩

/-- C10 witness: the verified one-bit entry at bit 115 with an 8-byte buffer. -/
theorem codec_total_inbounds_witness :
    verifyCMOSOp entFlag = true ∧
    ((CMOS.WriteEntry (someMem (fun _ => 240)) entFlag (putUint64LE 1)).isSome = true ∧
      ∃ v1, CMOS.ReadEntry (someMem (fun _ => 240)) entFlag = some v1 ∧
        v1.length = (if entFlag.config = CMOSEntryString then (entFlag.length + 7) / 8 else 8)) :=
  ⟨by decide, codec_total_inbounds (fun _ => 240) entFlag (putUint64LE 1) (by decide)⟩

/-! ### Little-endian decoding lemmas -/

theorem leUint_nil : leUint [] = 0 := rfl

theorem leUint_cons (b : Nat) (l : List Nat) : leUint (b :: l) = b + 256 * leUint l := rfl

theorem leUint_append (a b : List Nat) :
    leUint (a ++ b) = leUint a + 256 ^ a.length * leUint b := by
  induction a with
  | nil => simp [leUint_nil]
  | cons x a iha =>
    rw [List.cons_append, leUint_cons, leUint_cons, iha, List.length_cons]
    ring

theorem leUint_replicate_zero (n : Nat) : leUint (List.replicate n 0) = 0 := by
  induction n with
  | zero => rfl
  | succ k ihk => rw [List.replicate_succ, leUint_cons, ihk]

theorem leUint_head_tail (v : List Nat) :
    leUint v = v.getD 0 0 + 256 * leUint (v.drop 1) := by
  cases v with
  | nil => rfl
  | cons b t => rw [leUint_cons]; rfl

theorem getD_zero_drop (v : List Nat) (q : Nat) : (v.drop q).getD 0 0 = v.getD q 0 := by
  rw [List.getD_eq_getElem?_getD, List.getD_eq_getElem?_getD, List.getElem?_drop,
    Nat.add_zero]

theorem leUint_take_drop (v : List Nat) (q : Nat) (hq : q ≤ v.length) :
    leUint v = leUint (v.take q) + 256 ^ q * leUint (v.drop q) := by
  conv_lhs => rw [← List.take_append_drop q v]
  rw [leUint_append, List.length_take]
  have : min q v.length = q := by omega
  rw [this]

theorem map_range_getD_eq_take (v : List Nat) (q : Nat) (hq : q ≤ v.length) :
    (List.range q).map (fun k => v.getD k 0) = v.take q := by
  apply List.ext_getElem
  · simp only [List.length_map, List.length_range, List.length_take]
    omega
  · intro n h1 h2
    simp only [List.length_map, List.length_range] at h1
    rw [List.getElem_map, List.getElem_range, List.getElem_take]
    exact List.getD_eq_getElem v 0 (by omega)

/-- The read window over a memory whose bytes agree with a buffer: whole
bytes come from the buffer, the partial byte agrees under the mask. -/
theorem memWindow_eq_of_bytes :
    ∀ (rem : Nat) (m1 : Nat → Nat) (v : List Nat) (j d : Nat),
    (∀ k, k < rem / 8 → m1 (j + k) = v.getD (d + k) 0) →
    (rem % 8 ≠ 0 → m1 (j + rem / 8) &&& (2 ^ (rem % 8) - 1) =
      v.getD (d + rem / 8) 0 &&& (2 ^ (rem % 8) - 1)) →
    memWindow m1 j rem =
      (List.range (rem / 8)).map (fun k => v.getD (d + k) 0) ++
        (if rem % 8 = 0 then [] else
          [v.getD (d + rem / 8) 0 &&& (2 ^ (rem % 8) - 1)]) := by
  intro rem
  induction rem using Nat.strong_induction_on with
  | _ rem ih =>
    intro m1 v j d hwhole hpart
    by_cases h0 : rem = 0
    · subst h0
      rw [memWindow.eq_def]
      simp
    · by_cases hp : rem < 8
      · have hq : rem / 8 = 0 := by omega
        have hr : rem % 8 = rem := by omega
        rw [memWindow_small m1 j rem h0 hp, hq, hr]
        rw [if_neg (by omega : ¬ rem = 0)]
        have := hpart (by omega)
        rw [hq, hr, Nat.add_zero, Nat.add_zero] at this
        rw [this]
        rfl
      · have hq : rem / 8 = (rem - 8) / 8 + 1 := by omega
        have hr : rem % 8 = (rem - 8) % 8 := by omega
        rw [memWindow_whole m1 j rem (by omega)]
        rw [ih (rem - 8) (by omega) m1 v (j + 1) (d + 1)
          (fun k hk => by
            have := hwhole (k + 1) (by omega)
            rw [show j + (k + 1) = j + 1 + k by omega,
              show d + (k + 1) = d + 1 + k by omega] at this
            exact this)
          (fun hrr => by
            have := hpart (by omega)
            rw [show j + rem / 8 = j + 1 + (rem - 8) / 8 by omega,
              show d + rem / 8 = d + 1 + (rem - 8) / 8 by omega, hr] at this
            exact this)]
        have hj : m1 j = v.getD d 0 := by
          have := hwhole 0 (by omega)
          rwa [Nat.add_zero, Nat.add_zero] at this
        rw [hj, hq, hr]
        rw [List.range_succ_eq_map, List.map_cons, List.map_map]
        have hfun : ((fun k => v.getD (d + k) 0) ∘ Nat.succ) =
            (fun k => v.getD (d + 1 + k) 0) := by
          funext k
          simp only [Function.comp]
          congr 1
          omega
        rw [hfun]
        simp [List.cons_append,
          show d + ((rem - 8) / 8 + 1) = d + 1 + (rem - 8) / 8 by omega]

theorem set_zero_replicate (n x : Nat) (h : 1 ≤ n) :
    (List.replicate n (0 : Nat)).set 0 x = x :: List.replicate (n - 1) 0 := by
  cases n with
  | zero => omega
  | succ k => rw [List.replicate_succ]; rfl

/-- C1: round-trip.  For an operable entry `E` and any buffer `v` wide enough
to cover `E.length` bits whose little-endian value is representable in
`E.length` bits, writing `v` with `WriteEntry` and reading `E` back with
`ReadEntry` yields a buffer that decodes (little-endian) to the same value —
for Hex/Enum this is `Uint64` of the 8-byte result, for String the raw bytes. -/
theorem writeEntry_readEntry_roundtrip (m : Nat → Nat) (e : CMOSEntry) (v : List Nat)
    (hop : verifyCMOSOp e = true)
    (hlen : e.length ≤ 8 * v.length)
    (hx : leUint v < 2 ^ e.length) :
    ∃ mem1, CMOS.WriteEntry (someMem m) e v = some mem1 ∧
      ∃ v1, CMOS.ReadEntry mem1 e = some v1 ∧ leUint v1 = leUint v := by
  obtain ⟨hbit, hlen2048, halign, hwidth⟩ := verifyCMOSOp_facts e hop
  have hrem : min e.length (8 * v.length) = e.length := by omega
  have hNlen : e.length ≤
      8 * (if e.config = CMOSEntryString then (e.length + 7) / 8 else 8) := by
    by_cases hs : e.config = CMOSEntryString
    · rw [if_pos hs]; omega
    · rw [if_neg hs]
      rcases hwidth with h1 | h2
      · exact absurd h1 hs
      · omega
  by_cases halg : e.bit % 8 = 0
  · obtain ⟨m1, hloop, hf1, hf2, hwhole, hlastbyte⟩ :=
      writeEntryLoop_spec e.length m v 0 e.bit (by omega) halg (by omega) (by omega)
        (by omega)
    have hwrite : CMOS.WriteEntry (someMem m) e v = some (someMem m1) := by
      unfold CMOS.WriteEntry
      rw [hop, if_pos rfl, hrem]
      exact hloop
    refine ⟨someMem m1, hwrite, ?_⟩
    have hread : CMOS.ReadEntry (someMem m1) e =
        some (memWindow m1 (e.bit / 8) e.length ++
          List.replicate ((if e.config = CMOSEntryString then (e.length + 7) / 8 else 8)
            - (e.length + 7) / 8) 0) := by
      unfold CMOS.ReadEntry
      rw [hop, if_pos rfl]
      rw [readEntryLoop_spec e.length m1 _ e.bit 0 halg (by omega) (by omega) (by omega)
        (by rw [List.length_replicate]; omega)]
      norm_num [List.drop_replicate]
    refine ⟨_, hread, ?_⟩
    have hq_le : e.length / 8 ≤ v.length := by omega
    have hwin : memWindow m1 (e.bit / 8) e.length =
        (List.range (e.length / 8)).map (fun k => v.getD (0 + k) 0) ++
          (if e.length % 8 = 0 then [] else
            [v.getD (0 + e.length / 8) 0 &&& (2 ^ (e.length % 8) - 1)]) := by
      apply memWindow_eq_of_bytes e.length m1 v (e.bit / 8) 0
      · intro k hk
        have hk2 := hwhole k hk
        rw [show (0 : Nat) / 8 + k = 0 + k by omega] at hk2
        exact hk2
      · intro hrne
        rw [hlastbyte hrne,
          show (0 : Nat) / 8 + e.length / 8 = 0 + e.length / 8 by omega]
        exact merge_and_mask _ _ (e.length % 8) (by omega)
    rw [hwin]
    simp only [Nat.zero_add]
    rw [map_range_getD_eq_take v (e.length / 8) hq_le]
    rw [leUint_append, leUint_append, leUint_replicate_zero, Nat.mul_zero, Nat.add_zero]
    have hlt : (v.take (e.length / 8)).length = e.length / 8 := by
      rw [List.length_take]
      omega
    rw [hlt]
    have hvtd := leUint_take_drop v (e.length / 8) hq_le
    have hD := leUint_head_tail (v.drop (e.length / 8))
    rw [getD_zero_drop] at hD
    have hpow : 2 ^ e.length = 256 ^ (e.length / 8) * 2 ^ (e.length % 8) := by
      conv_lhs => rw [show e.length = 8 * (e.length / 8) + e.length % 8 by omega]
      rw [pow_add, Nat.pow_mul]
    have hPle : 256 ^ (e.length / 8) * leUint (v.drop (e.length / 8)) ≤ leUint v := by
      rw [hvtd]
      omega
    by_cases hr0 : e.length % 8 = 0
    · rw [if_pos hr0, leUint_nil, Nat.mul_zero, Nat.add_zero]
      have hxx : leUint v < 256 ^ (e.length / 8) * 1 := by
        rw [hpow, hr0] at hx
        simpa using hx
      have hDz : leUint (v.drop (e.length / 8)) = 0 := by
        have := Nat.lt_of_mul_lt_mul_left (lt_of_le_of_lt hPle hxx)
        omega
      rw [hvtd, hDz, Nat.mul_zero, Nat.add_zero]
    · rw [if_neg hr0]
      have hDlt : leUint (v.drop (e.length / 8)) < 2 ^ (e.length % 8) := by
        rw [hpow] at hx
        exact Nat.lt_of_mul_lt_mul_left (lt_of_le_of_lt hPle hx)
      have h2r : 2 ^ (e.length % 8) ≤ 256 := by
        have := Nat.pow_le_pow_right (show 0 < 2 by norm_num)
          (show e.length % 8 ≤ 8 by omega)
        omega
      have hgq : v.getD (e.length / 8) 0 = leUint (v.drop (e.length / 8)) := by
        omega
      have hand : v.getD (e.length / 8) 0 &&& (2 ^ (e.length % 8) - 1) =
          v.getD (e.length / 8) 0 := by
        rw [Nat.and_pow_two_sub_one_eq_mod]
        exact Nat.mod_eq_of_lt (by omega)
      rw [leUint_cons, leUint_nil, hand, hvtd, hgq]
      ring
  · have hsmall : e.bit % 8 + e.length ≤ 8 := by
      rcases halign with h1 | h2
      · exact absurd h1 halg
      · exact h2
    by_cases h0 : e.length = 0
    · have hx0 : leUint v = 0 := by
        rw [h0] at hx
        simpa using hx
      refine ⟨someMem m, ?_, ?_⟩
      · unfold CMOS.WriteEntry
        rw [hop, if_pos rfl, hrem, h0, writeEntryLoop_zero]
      · refine ⟨List.replicate
          (if e.config = CMOSEntryString then (e.length + 7) / 8 else 8) 0, ?_, ?_⟩
        · unfold CMOS.ReadEntry
          rw [hop, if_pos rfl, h0, readEntryLoop_zero]
        · rw [leUint_replicate_zero, hx0]
    · have hlen8 : e.length < 8 := by omega
      have hget := getElem?_eq_some_getD v (0 / 8) (by omega)
      have hrd := readByteAcc_someMem m (e.bit / 8) (by omega) (by omega)
      have hwv_lt : (v.getD (0 / 8) 0 >>> (0 % 8)) &&& (2 ^ e.length - 1) <
          2 ^ e.length := by
        rw [Nat.and_pow_two_sub_one_eq_mod]
        exact Nat.mod_lt _ (Nat.two_pow_pos e.length)
      set nb := (m (e.bit / 8) &&&
          ((((2 ^ e.length - 1) <<< (e.bit % 8)) % 256) ^^^ 255)) |||
          ((((v.getD (0 / 8) 0 >>> (0 % 8)) &&& (2 ^ e.length - 1)) <<< (e.bit % 8)) &&&
            (((2 ^ e.length - 1) <<< (e.bit % 8)) % 256)) with hnb
      have hwrite : CMOS.WriteEntry (someMem m) e v =
          some (someMem (fun i => if i = e.bit / 8 then nb else m i)) := by
        unfold CMOS.WriteEntry
        rw [hop, if_pos rfl, hrem,
          writeEntryLoop_last (someMem m) v 0 e.bit e.length h0 hlen8 _ hget _ hrd]
        exact writeByteAcc_someMem m _ _ (by omega) (by omega)
      refine ⟨_, hwrite, ?_⟩
      have hrd1 : readByteAcc (someMem (fun i => if i = e.bit / 8 then nb else m i))
          (e.bit / 8) = some nb := by
        rw [readByteAcc_someMem _ _ (by omega) (by omega)]
        simp
      have hdlt : 0 / 8 < (List.replicate
          (if e.config = CMOSEntryString then (e.length + 7) / 8 else 8) (0 : Nat)).length := by
        rw [List.length_replicate]
        by_cases hs : e.config = CMOSEntryString
        · rw [if_pos hs]; omega
        · rw [if_neg hs]; omega
      have hread : CMOS.ReadEntry (someMem (fun i => if i = e.bit / 8 then nb else m i)) e =
          some ((List.replicate
            (if e.config = CMOSEntryString then (e.length + 7) / 8 else 8) 0).set (0 / 8)
              ((nb >>> (e.bit % 8)) &&& (2 ^ e.length - 1))) := by
        unfold CMOS.ReadEntry
        rw [hop, if_pos rfl]
        exact readEntryLoop_last _ e.bit 0 e.length _ h0 hlen8 _ hrd1 hdlt
      refine ⟨_, hread, ?_⟩
      have hextract : (nb >>> (e.bit % 8)) &&& (2 ^ e.length - 1) =
          (v.getD (0 / 8) 0 >>> (0 % 8)) &&& (2 ^ e.length - 1) := by
        rw [hnb]
        exact extract_merge _ _ _ _ (by omega) hwv_lt
      have hhead := leUint_head_tail v
      have h2r : 2 ^ e.length ≤ 128 := by
        have := Nat.pow_le_pow_right (show 0 < 2 by norm_num)
          (show e.length ≤ 7 by omega)
        omega
      have hwv : (v.getD (0 / 8) 0 >>> (0 % 8)) &&& (2 ^ e.length - 1) = v.getD 0 0 := by
        rw [show (0 : Nat) / 8 = 0 from rfl, show (0 : Nat) % 8 = 0 from rfl,
          Nat.shiftRight_zero, Nat.and_pow_two_sub_one_eq_mod]
        apply Nat.mod_eq_of_lt
        omega
      rw [hextract, hwv, show (0 : Nat) / 8 = 0 from rfl]
      rw [set_zero_replicate _ _ (by
        by_cases hs : e.config = CMOSEntryString
        · rw [if_pos hs]; omega
        · rw [if_neg hs]; omega)]
      rw [leUint_cons, leUint_replicate_zero]
      omega

/-- C1 witness: the one-bit Hex entry `flag` at bit 115 with value 1. -/
theorem writeEntry_readEntry_roundtrip_witness :
    (verifyCMOSOp entFlag = true ∧ entFlag.length ≤ 8 * (putUint64LE 1).length ∧
      leUint (putUint64LE 1) < 2 ^ entFlag.length) ∧
    (∃ mem1, CMOS.WriteEntry (someMem (fun _ => 240)) entFlag (putUint64LE 1) = some mem1 ∧
      ∃ v1, CMOS.ReadEntry mem1 entFlag = some v1 ∧ leUint v1 = leUint (putUint64LE 1)) :=
  ⟨⟨by decide, by decide, by decide⟩,
    writeEntry_readEntry_roundtrip (fun _ => 240) entFlag (putUint64LE 1)
      (by decide) (by decide) (by decide)⟩

/-! ### Checksum lemmas (C4) -/

theorem computeChecksumLoop_eq (mem : Mem) (m : Nat → Nat) :
    ∀ (is : List Nat) (sum : Nat),
    (∀ i ∈ is, readByteAcc mem i = some (m i)) →
    computeChecksumLoop mem is sum =
      some (is.foldl (fun s i => (s + m i) % 65536) sum) := by
  intro is
  induction is with
  | nil => intro sum _; rfl
  | cons a t iht =>
    intro sum hall
    simp only [computeChecksumLoop, List.foldl_cons]
    rw [hall a (by simp)]
    exact iht _ (fun i hi => hall i (by simp [hi]))

theorem foldl_mod_lt (m : Nat → Nat) :
    ∀ (is : List Nat) (sum : Nat), sum < 65536 →
    is.foldl (fun s i => (s + m i) % 65536) sum < 65536 := by
  intro is
  induction is with
  | nil => intro sum h; simpa using h
  | cons a t iht =>
    intro sum h
    simp only [List.foldl_cons]
    exact iht _ (Nat.mod_lt _ (by norm_num))

theorem foldl_mod_congr (m1 m2 : Nat → Nat) :
    ∀ (is : List Nat) (sum : Nat), (∀ i ∈ is, m1 i = m2 i) →
    is.foldl (fun s i => (s + m1 i) % 65536) sum =
      is.foldl (fun s i => (s + m2 i) % 65536) sum := by
  intro is
  induction is with
  | nil => intro sum _; rfl
  | cons a t iht =>
    intro sum hall
    simp only [List.foldl_cons]
    rw [hall a (by simp)]
    exact iht _ (fun i hi => hall i (by simp [hi]))

/-- Inverting a successful `NewCMOSChecksum`: the stored byte offsets are in
range and the summed range is disjoint from `[index, 2*index]` (hence from the
two-byte slot). -/
theorem newCMOSChecksum_facts (a b c : Nat) (cs : CMOSChecksum)
    (h : NewCMOSChecksum a b c = some cs) :
    14 ≤ cs.start ∧ cs.start ≤ cs.end_ ∧ cs.end_ < 256 ∧ 14 ≤ cs.index ∧
      cs.index < 256 ∧ (cs.end_ < cs.index ∨ 2 * cs.index < cs.start) := by
  simp only [NewCMOSChecksum] at h
  split_ifs at h with h1 h2 h3 h4 h5 h6 h7 <;> try exact Option.noConfusion h
  injection h with h
  subst h
  simp only [Bool.or_eq_true, Bool.not_eq_true', Bool.not_eq_true, not_or] at h5 h6
  obtain ⟨h5a, h5b⟩ := h5
  simp only [verifyCMOSByteIndex, cmosRTCAreaSize, cmosSize, Bool.not_eq_false,
    Bool.and_eq_true, decide_eq_true_eq] at h5a h5b h6
  simp only [checkAreaOverLap, Bool.and_eq_true, decide_eq_true_eq, not_and, not_le] at h7
  have hab : a / 8 ≤ b / 8 := by omega
  simp only []
  refine ⟨by omega, by omega, by omega, by omega, by omega, ?_⟩
  by_cases hcb : c / 8 ≤ b / 8
  · right
    have := h7 (by omega)
    omega
  · left
    omega

/-- C4: closing a dirty session over an error-free accessor persists, at the
descriptor's `index` (high byte) and `index+1` (low byte), the unsigned 16-bit
wrapping sum of the final CMOS bytes in `[start, end]`: recomputing the
checksum over the persisted state matches the stored big-endian value.  The
hypothesis `cs.index + 1 < 256` is part of "the accessor reports no errors"
(the second checksum byte must be writable). -/
theorem close_checksum_stable (a b c : Nat) (cs : CMOSChecksum) (m : Nat → Nat)
    (hcs : NewCMOSChecksum a b c = some cs)
    (hidx : cs.index + 1 < 256) :
    ∃ S, S < 65536 ∧
      (NVRAM.Close (someMem m) cs true).mem cs.index = some (S >>> 8) ∧
      (NVRAM.Close (someMem m) cs true).mem (cs.index + 1) = some (S &&& 255) ∧
      CMOS.ComputeChecksum ((NVRAM.Close (someMem m) cs true).mem) cs = some S ∧
      CMOS.ReadChecksum ((NVRAM.Close (someMem m) cs true).mem) cs = some S ∧
      (NVRAM.Close (someMem m) cs true).modified = false := by
  obtain ⟨hst, hse, he, hi1, hi2, hdisj⟩ := newCMOSChecksum_facts a b c cs hcs
  set S := (List.range' cs.start (cs.end_ + 1 - cs.start)).foldl
    (fun s i => (s + m i) % 65536) 0 with hS
  have hrange : ∀ i ∈ List.range' cs.start (cs.end_ + 1 - cs.start),
      14 ≤ i ∧ i < 256 ∧ i ≠ cs.index ∧ i ≠ cs.index + 1 := by
    intro i hi
    rw [List.mem_range'_1] at hi
    rcases hdisj with hd | hd <;> exact ⟨by omega, by omega, by omega, by omega⟩
  have hCM : CMOS.ComputeChecksum (someMem m) cs = some S := by
    unfold CMOS.ComputeChecksum
    exact computeChecksumLoop_eq (someMem m) m _ 0
      (fun i hi => readByteAcc_someMem m i (hrange i hi).1 (hrange i hi).2.1)
  have hSlt : S < 65536 := foldl_mod_lt m _ 0 (by norm_num)
  have hSsh : S >>> 8 < 256 := by
    rw [Nat.shiftRight_eq_div_pow]
    omega
  set mF : Nat → Nat := fun i =>
    if i = cs.index + 1 then S &&& 255 else if i = cs.index then (S >>> 8) % 256 else m i
    with hmF
  have hm2 := writeByteAcc_someMem m cs.index ((S >>> 8) % 256) hi1 hi2
  have hm3 := writeByteAcc_someMem (fun i => if i = cs.index then (S >>> 8) % 256 else m i)
    (cs.index + 1) (S &&& 255) (by omega) hidx
  have hWC : CMOS.WriteChecksum (someMem m) cs S = (someMem mF, true) := by
    unfold CMOS.WriteChecksum
    rw [hm2]
    simp only []
    rw [hm3]
  have hmem : (NVRAM.Close (someMem m) cs true).mem = someMem mF := by
    simp only [NVRAM.Close, if_pos, hCM, hWC]
  have hmod : (NVRAM.Close (someMem m) cs true).modified = false := by
    simp only [NVRAM.Close, if_pos, hCM, hWC]
  have hFrange : ∀ i ∈ List.range' cs.start (cs.end_ + 1 - cs.start), mF i = m i := by
    intro i hi
    obtain ⟨_, _, hne1, hne2⟩ := hrange i hi
    rw [hmF]
    simp only []
    rw [if_neg hne2, if_neg hne1]
  have hshmod : (S >>> 8) % 256 = S >>> 8 := Nat.mod_eq_of_lt hSsh
  refine ⟨S, hSlt, ?_, ?_, ?_, ?_, hmod⟩
  · rw [hmem]
    show some (mF cs.index) = some (S >>> 8)
    have hne : cs.index ≠ cs.index + 1 := by omega
    simp [hmF, hne, hshmod]
  · rw [hmem]
    show some (mF (cs.index + 1)) = some (S &&& 255)
    simp [hmF]
  · rw [hmem]
    unfold CMOS.ComputeChecksum
    rw [computeChecksumLoop_eq (someMem mF) mF _ 0
      (fun i hi => readByteAcc_someMem mF i (hrange i hi).1 (hrange i hi).2.1)]
    rw [foldl_mod_congr mF m _ 0 hFrange]
  · rw [hmem]
    unfold CMOS.ReadChecksum
    rw [readByteAcc_someMem mF cs.index hi1 hi2,
      readByteAcc_someMem mF (cs.index + 1) (by omega) hidx]
    simp only []
    have hne : cs.index ≠ cs.index + 1 := by omega
    have hb0 : mF cs.index = S >>> 8 := by simp [hmF, hne, hshmod]
    have hb1 : mF (cs.index + 1) = S &&& 255 := by simp [hmF]
    rw [hb0, hb1]
    have h255 : (255 : Nat) = 2 ^ 8 - 1 := by norm_num
    rw [Nat.shiftLeft_eq, Nat.shiftRight_eq_div_pow, h255,
      Nat.and_pow_two_sub_one_eq_mod]
    congr 1
    omega

/-- C4 witness: the default descriptor over an all-ones CMOS. -/
theorem close_checksum_stable_witness :
    (NewCMOSChecksum 392 1007 1008 = some csDefault ∧ csDefault.index + 1 < 256) ∧
    (∃ S, S < 65536 ∧
      (NVRAM.Close (someMem (fun _ => 1)) csDefault true).mem csDefault.index =
        some (S >>> 8) ∧
      (NVRAM.Close (someMem (fun _ => 1)) csDefault true).mem (csDefault.index + 1) =
        some (S &&& 255) ∧
      CMOS.ComputeChecksum ((NVRAM.Close (someMem (fun _ => 1)) csDefault true).mem)
        csDefault = some S ∧
      CMOS.ReadChecksum ((NVRAM.Close (someMem (fun _ => 1)) csDefault true).mem)
        csDefault = some S ∧
      (NVRAM.Close (someMem (fun _ => 1)) csDefault true).modified = false) :=
  ⟨⟨by decide, by decide⟩,
    close_checksum_stable 392 1007 1008 csDefault (fun _ => 1) (by decide) (by decide)⟩

/-! ### Enum lookups are mutually inverse under the uniqueness invariant (C8) -/

theorem findText_addEnum (l : Layout) (it : CMOSEnumItem) (id v : Nat) :
    (l.AddCMOSEnum it).FindCMOSEnumText id v =
      if id = it.id then
        (if v = it.value then some it.text else l.FindCMOSEnumText id v)
      else l.FindCMOSEnumText id v := by
  unfold Layout.AddCMOSEnum Layout.FindCMOSEnumText
  by_cases hid : id = it.id
  · cases hen : l.enums it.id <;> by_cases hv : v = it.value <;> simp [hid, hen, hv]
  · simp [hid]

theorem findValue_addEnum (l : Layout) (it : CMOSEnumItem) (id : Nat) (t : String) :
    (l.AddCMOSEnum it).FindCMOSEnumValue id t =
      if id = it.id then
        (if t = it.text then some it.value else l.FindCMOSEnumValue id t)
      else l.FindCMOSEnumValue id t := by
  unfold Layout.AddCMOSEnum Layout.FindCMOSEnumValue
  by_cases hid : id = it.id
  · cases hen : l.enums it.id <;> by_cases ht : t = it.text <;> simp [hid, hen, ht]
  · simp [hid]

theorem addCMOSEnums_inverse_aux :
    ∀ (items : List CMOSEnumItem) (l : Layout),
    (∀ id v t, l.FindCMOSEnumText id v = some t ↔ l.FindCMOSEnumValue id t = some v) →
    (∀ it ∈ items, ∀ v t, l.FindCMOSEnumText it.id v = some t →
      v ≠ it.value ∧ t ≠ it.text) →
    items.Pairwise (fun x y => x.id = y.id → x.value ≠ y.value ∧ x.text ≠ y.text) →
    ∀ id v t,
      ((addCMOSEnums l items).FindCMOSEnumText id v = some t ↔
        (addCMOSEnums l items).FindCMOSEnumValue id t = some v) := by
  intro items
  induction items with
  | nil => intro l hinv _ _ id v t; exact hinv id v t
  | cons it rest ih =>
    intro l hinv hfresh hpw
    rw [List.pairwise_cons] at hpw
    obtain ⟨hpw1, hpw2⟩ := hpw
    have hstep : addCMOSEnums l (it :: rest) = addCMOSEnums (l.AddCMOSEnum it) rest := by
      simp [addCMOSEnums]
    rw [hstep]
    have hinv1 : ∀ id v t, (l.AddCMOSEnum it).FindCMOSEnumText id v = some t ↔
        (l.AddCMOSEnum it).FindCMOSEnumValue id t = some v := by
      intro id v t
      rw [findText_addEnum, findValue_addEnum]
      by_cases hid : id = it.id
      · rw [if_pos hid, if_pos hid]
        by_cases hv : v = it.value
        · rw [if_pos hv]
          by_cases ht : t = it.text
          · rw [if_pos ht]
            constructor
            · intro _; rw [hv]
            · intro _; rw [ht]
          · rw [if_neg ht]
            constructor
            · intro hsome
              injection hsome with hsome
              exact absurd hsome.symm ht
            · intro hval
              exfalso
              have htext := (hinv id v t).mpr hval
              exact (hfresh it (by simp) v t (by rwa [hid] at htext)).1 hv
        · rw [if_neg hv]
          by_cases ht : t = it.text
          · rw [if_pos ht]
            constructor
            · intro htext
              exfalso
              exact (hfresh it (by simp) v t (by rwa [hid] at htext)).2 ht
            · intro hval
              injection hval with hval
              exact absurd hval.symm hv
          · rw [if_neg ht]
            exact hinv id v t
      · rw [if_neg hid, if_neg hid]
        exact hinv id v t
    have hfresh1 : ∀ it1 ∈ rest, ∀ v t,
        (l.AddCMOSEnum it).FindCMOSEnumText it1.id v = some t →
          v ≠ it1.value ∧ t ≠ it1.text := by
      intro it1 hmem v t hlook
      rw [findText_addEnum] at hlook
      by_cases hid : it1.id = it.id
      · rw [if_pos hid] at hlook
        by_cases hv : v = it.value
        · rw [if_pos hv] at hlook
          injection hlook with hlook
          have hd := hpw1 it1 hmem hid.symm
          constructor
          · intro hvv
            exact hd.1 (by rw [← hv, hvv])
          · intro htt
            exact hd.2 (by rw [hlook, htt])
        · rw [if_neg hv] at hlook
          exact hfresh it1 (List.mem_cons_of_mem _ hmem) v t hlook
      · rw [if_neg hid] at hlook
        exact hfresh it1 (List.mem_cons_of_mem _ hmem) v t hlook
    exact ih (l.AddCMOSEnum it) hinv1 hfresh1 hpw2

/-- C8 (amended): after any sequence of `AddCMOSEnum` calls in which no two
items share an `(id, value)` pair and no two share an `(id, text)` pair, the
enum lookups are mutually inverse: `FindCMOSEnumText id v = some t` holds
exactly when `FindCMOSEnumValue id t = some v`. -/
theorem addCMOSEnums_lookups_inverse (items : List CMOSEnumItem)
    (hdist : items.Pairwise
      (fun x y => x.id = y.id → x.value ≠ y.value ∧ x.text ≠ y.text))
    (id v : Nat) (t : String) :
    ((addCMOSEnums NewLayout items).FindCMOSEnumText id v = some t ↔
      (addCMOSEnums NewLayout items).FindCMOSEnumValue id t = some v) :=
  addCMOSEnums_inverse_aux items NewLayout
    (fun id v t => by
      constructor <;> intro h <;>
        simp [Layout.FindCMOSEnumText, Layout.FindCMOSEnumValue, NewLayout] at h)
    (fun it _ v t h => by
      simp [Layout.FindCMOSEnumText, NewLayout] at h)
    hdist id v t

/-- C8 amended witness: items `(7,0,"off")` and `(7,1,"on")`. -/
theorem addCMOSEnums_lookups_inverse_witness :
    ([⟨7, 0, "off"⟩, ⟨7, 1, "on"⟩] : List CMOSEnumItem).Pairwise
      (fun x y => x.id = y.id → x.value ≠ y.value ∧ x.text ≠ y.text) ∧
    ((addCMOSEnums NewLayout [⟨7, 0, "off"⟩, ⟨7, 1, "on"⟩]).FindCMOSEnumText 7 1 =
        some "on" ↔
      (addCMOSEnums NewLayout [⟨7, 0, "off"⟩, ⟨7, 1, "on"⟩]).FindCMOSEnumValue 7 "on" =
        some 1) :=
  ⟨by
    refine List.Pairwise.cons ?_ (List.pairwise_singleton _ _)
    intro y hy
    simp only [List.mem_singleton] at hy
    subst hy
    intro _
    exact ⟨by decide, by decide⟩,
    addCMOSEnums_lookups_inverse [⟨7, 0, "off"⟩, ⟨7, 1, "on"⟩]
      (by
        refine List.Pairwise.cons ?_ (List.pairwise_singleton _ _)
        intro y hy
        simp only [List.mem_singleton] at hy
        subst hy
        intro _
        exact ⟨by decide, by decide⟩) 7 1 "on"⟩

end Nvram
